import Mathlib

/-!
Shallow embedding of the icu-message-formatter core, translated from
`src/source/utilities.js` and `src/source/MessageFormatter.js`.

Modelling conventions:
* JS strings are `List Char`; `String.prototype.indexOf` returning `-1` is
  modelled by `Option Nat` (for the `'{'` search in `process`), while
  `findClosingBracket` keeps the `Int` result with the `-1` sentinel exactly
  as in the source.
* JS runtime values flowing through the formatter are `JValue` (a string,
  `null`, `undefined`, or an array of result nodes as returned by a
  recursing type handler); the metadata objects built by
  `decorateMessageString` / `decorateValue` are `RNode`.
* Fallible code (`process` throwing on unbalanced braces) returns `Except`.
* `process` passes itself to type handlers (`this.process.bind(this)` in the
  source), so with arbitrary handlers its JS recursion is unbounded.  The
  Lean model therefore carries a `fuel : Nat` bounding the recursion depth
  (each recursive call, both the tail recursion and the callback handed to a
  handler, runs on `fuel - 1`; at fuel 0 the model returns an empty result).
  Since every tail step consumes at least one character, any
  `fuel > message.length` is sufficient when handlers do not re-enter, and
  the theorems below state their fuel requirements explicitly.
* `format`'s `memoize` wrapper is a pure caching layer and is modelled as
  the identity.
-/

namespace ICU

/-- JS `String.prototype.trim`: surrounding whitespace removed from both ends. -/
def trim (s : List Char) : List Char :=
  ((s.dropWhile Char.isWhitespace).reverse.dropWhile Char.isWhitespace).reverse

/-- JS `string.indexOf(char)`: index of the first occurrence of a single
character, `none` modelling `-1`. -/
def indexOfChar : List Char → Char → Option Nat
  | [], _ => none
  | c :: rest, target =>
    if c = target then some 0
    else Option.map (fun i => i + 1) (indexOfChar rest target)

/-- JS `string.indexOf(pattern)` for a string pattern, `none` modelling `-1`. -/
def indexOfList : List Char → List Char → Option Nat
  | [], pat => if pat = [] then some 0 else none
  | c :: rest, pat =>
    if pat.isPrefixOf (c :: rest) then some 0
    else Option.map (fun i => i + 1) (indexOfList rest pat)

/-- Loop body of `findClosingBracket` (utilities.js lines 85-100): the list
argument is the portion of the original string from position `i` on, so the
structural recursion mirrors `for (let i = fromIndex + 1; i < string.length; i++)`. -/
def findClosingBracketGo : List Char → Nat → Nat → Int
  | [], _, _ => -1
  | char :: rest, i, depth =>
    if char = '}' then
      if depth = 0 then (i : Int) else findClosingBracketGo rest (i + 1) (depth - 1)
    else if char = '{' then
      findClosingBracketGo rest (i + 1) (depth + 1)
    else
      findClosingBracketGo rest (i + 1) depth

/-- utilities.js `findClosingBracket(string, fromIndex)`: index of the matching
closing curly bracket scanning from `fromIndex + 1` with a nesting counter,
or `-1` if none is found. -/
def findClosingBracket (string : List Char) (fromIndex : Nat) : Int :=
  findClosingBracketGo (string.drop (fromIndex + 1)) (fromIndex + 1) 0

/-- Worker for utilities.js `split(string, separator, limit, accumulator)`
(lines 126-143), including the `separator.length + 1` advance of the source.
`accumulator.push` becomes appending a singleton.  The extra `fuel` argument
only makes the shrinking-string recursion structural: every recursive call
strictly shortens the string, so any fuel above the string length is
sufficient and the fuel-0 default is never reached from `split`. -/
def splitGo (separator : List Char) : Nat → List Char → Nat → List (List Char) → List (List Char)
  | 0, _, _, accumulator => accumulator
  | fuel + 1, string, limit, accumulator =>
    if string = [] then accumulator
    else if limit = 1 then accumulator ++ [string]
    else
      match indexOfList string separator with
      | none => accumulator ++ [string]
      | some indexOfDelimiter =>
        let head := trim (string.take indexOfDelimiter)
        let tail := trim (string.drop (indexOfDelimiter + separator.length + 1))
        splitGo separator fuel tail (limit - 1) (accumulator ++ [head])

/-- utilities.js `split`: the worker run with sufficient fuel.  The source is
only ever called with `limit = 3`. -/
def split (string separator : List Char) (limit : Nat)
    (accumulator : List (List Char)) : List (List Char) :=
  splitGo separator (string.length + 1) string limit accumulator

/-- utilities.js `splitFormattedArgument(block)`: strips the outer braces
(`block.slice(1, -1)`) and splits on commas into at most 3 parts. -/
def splitFormattedArgument (block : List Char) : List (List Char) :=
  split ((block.drop 1).dropLast) [','] 3 []

/-- utilities.js `SOURCE_MESSAGE`. -/
def SOURCE_MESSAGE : List Char := "message".data

/-- utilities.js `SOURCE_PLACEHOLDER`. -/
def SOURCE_PLACEHOLDER : List Char := "placeholder".data

mutual
/-- Model of a JS value flowing through the formatter: a string, `null`,
`undefined`, or an array of result nodes (what a recursing type handler
returns and what `extractValues` recurses into). -/
inductive JValue : Type where
  | str : List Char → JValue
  | null : JValue
  | undef : JValue
  | arr : List RNode → JValue
/-- Model of the metadata objects returned by `MessageFormatter#process`:
the `source` property, the optional `key` and `type` properties (absent on
message-text nodes, possibly `undefined` on value nodes), and `value`. -/
inductive RNode : Type where
  | mk : List Char → Option (List Char) → Option (List Char) → JValue → RNode
end

/-- Projection: the `source` property of a result node. -/
def RNode.source : RNode → List Char
  | RNode.mk s _ _ _ => s

/-- Projection: the `value` property of a result node. -/
def RNode.value : RNode → JValue
  | RNode.mk _ _ _ v => v

/-- Recogniser for string values (used to state the all-values-are-strings
hypothesis of the flattening round trip). -/
def JValue.isStr : JValue → Bool
  | JValue.str _ => true
  | _ => false

/-- Recogniser for `null` / `undefined` (used to state the missing-value
leniency claim). -/
def JValue.isNullOrUndef : JValue → Bool
  | JValue.null => true
  | JValue.undef => true
  | _ => false

/-- MessageFormatter.js `decorateMessageString(string)` (lines 28-33): tags a
literal message substring with `source: 'message'`. -/
def decorateMessageString (string : List Char) : RNode :=
  RNode.mk "message".data none none (JValue.str string)

/-- MessageFormatter.js `decorateValue(key, type, value)` (lines 44-51): tags a
placeholder result with `source: 'value'` and its key and type. -/
def decorateValue (key type : Option (List Char)) (value : JValue) : RNode :=
  RNode.mk "value".data key type value

/-- utilities.js `decorateMessage(string)`: same shape but built from the
exported `SOURCE_MESSAGE` constant. -/
def decorateMessage (string : List Char) : RNode :=
  RNode.mk SOURCE_MESSAGE none none (JValue.str string)

/-- utilities.js `decoratePlaceholder(key, type, value)`: tags with the
exported `SOURCE_PLACEHOLDER` constant.  `MessageFormatter#process` never
calls it. -/
def decoratePlaceholder (key type : Option (List Char)) (value : JValue) : RNode :=
  RNode.mk SOURCE_PLACEHOLDER key type value

/-- MessageFormatter.js `extractValues(array)` (lines 60-64): the
`reduce`/`concat` over the node list, flattening any array-valued node
(`Array.isArray(value) ? extractValues(value) : value`) and collecting leaf
values in order. -/
def extractValues : List RNode → List JValue
  | [] => []
  | RNode.mk _ _ _ (JValue.arr l) :: rest => extractValues l ++ extractValues rest
  | RNode.mk _ _ _ (JValue.str s) :: rest => JValue.str s :: extractValues rest
  | RNode.mk _ _ _ JValue.null :: rest => JValue.null :: extractValues rest
  | RNode.mk _ _ _ JValue.undef :: rest => JValue.undef :: extractValues rest

/-- JS `Array.prototype.join('')` stringification of one extracted leaf:
strings stay, `null` and `undefined` become the empty string.  The `arr` case
never occurs in the output of `extractValues`. -/
def jvalueJoinString : JValue → List Char
  | JValue.str s => s
  | JValue.null => []
  | JValue.undef => []
  | JValue.arr _ => []

/-- JS `extractedResult.join('')`. -/
def joinValues : List JValue → List Char
  | [] => []
  | v :: rest => jvalueJoinString v ++ joinValues rest

/-- Model of the `Error` thrown by `process` on unbalanced curly braces,
carrying the offending message (`Unbalanced curly braces in string: ...`). -/
inductive Err : Type where
  | unbalanced : List Char → Err

/-- The `values` argument: a JS object, modelled as an association list. -/
abbrev Values : Type := List (List Char × JValue)

/-- Type of the bound `this.process.bind(this)` callback handed to a handler. -/
abbrev ProcessFn : Type := List Char → Values → Option (List Char) → Except Err (List RNode)

/-- Type of a registered type handler: it receives
`(body, format, values, locale, process)` as in MessageFormatter.js line 143. -/
abbrev Handler : Type :=
  JValue → Option (List Char) → Values → Option (List Char) → ProcessFn → JValue

/-- The `typeHandlers` registry set at construction. -/
abbrev Handlers : Type := List (List Char × Handler)

/-- JS property-key coercion: an `undefined` key used in a property access is
coerced to the string `"undefined"`. -/
def jsKeyString : Option (List Char) → List Char
  | some k => k
  | none => "undefined".data

/-- JS property read `values[key]`: an absent property reads as `undefined`. -/
def propGet (values : Values) (key : Option (List Char)) : JValue :=
  match values.find? (fun p => decide (p.1 = jsKeyString key)) with
  | some p => p.2
  | none => JValue.undef

/-- MessageFormatter.js lines 137-140: `let body = values[key]` followed by the
null/undefined-to-empty-string leniency. -/
def resolveBody (values : Values) (key : Option (List Char)) : JValue :=
  match propGet values key with
  | JValue.null => JValue.str []
  | JValue.undef => JValue.str []
  | v => v

/-- MessageFormatter.js line 141: `let typeHandler = type && this.typeHandlers[type]`.
A missing `type` part, an empty `type` string (falsy) or an unregistered type
all yield no handler. -/
def lookupTypeHandler (handlers : Handlers) (type : Option (List Char)) : Option Handler :=
  match type with
  | none => none
  | some t =>
    if t = [] then none
    else Option.map (fun p => p.2) (handlers.find? (fun p => decide (p.1 = t)))

/-- Resolution of a placeholder key to the string it contributes to the
formatted output: the looked-up value if it is a string, the empty string
for a missing, `null` or `undefined` entry. -/
def resolveStr (values : Values) (key : Option (List Char)) : List Char :=
  match propGet values key with
  | JValue.str str => str
  | _ => []

/-- JS `string.substring(a, b)` for `a ≤ b`. -/
def seg (s : List Char) (a b : Nat) : List Char := (s.take b).drop a

/-- MessageFormatter.js `process(message, values, locale)` (lines 119-160).
The structure follows the source statement by statement; `fuel` only bounds
the depth of handler-triggered re-entry (see the module docstring). -/
def process (handlers : Handlers) (fuel : Nat) (message : List Char)
    (values : Values) (locale : Option (List Char)) : Except Err (List RNode) :=
  match fuel with
  | 0 => Except.ok []
  | f + 1 =>
    if message = [] then Except.ok []
    else
      match indexOfChar message '{' with
      | some blockStartIndex =>
        let blockEndIndex := findClosingBracket message blockStartIndex
        if blockEndIndex ≠ -1 then
          let e := blockEndIndex.toNat
          let block := seg message blockStartIndex (e + 1)
          if block ≠ [] then
            let head := message.take blockStartIndex
            let result : List RNode := if head ≠ [] then [decorateMessageString head] else []
            let parts := splitFormattedArgument block
            let key := parts.get? 0
            let type := parts.get? 1
            let format := parts.get? 2
            let body := resolveBody values key
            let typeHandler := lookupTypeHandler handlers type
            let value :=
              match typeHandler with
              | some handler =>
                handler body format values locale (fun m v l => process handlers f m v l)
              | none => body
            let result := result ++ [decorateValue key type value]
            let tail := message.drop (e + 1)
            if tail ≠ [] then
              match process handlers f tail values locale with
              | Except.ok rest => Except.ok (result ++ rest)
              | Except.error err => Except.error err
            else Except.ok result
          else Except.ok [decorateMessageString message]
        else Except.error (Err.unbalanced message)
      | none => Except.ok [decorateMessageString message]

/-- MessageFormatter.js `format` (lines 96-101): process, extract the values,
join with the empty separator.  The `memoize` wrapper is behaviourally
transparent and is modelled as the identity. -/
def format (handlers : Handlers) (fuel : Nat) (message : List Char)
    (values : Values) (locale : Option (List Char)) : Except Err (List Char) :=
  Except.map (fun processResult => joinValues (extractValues processResult))
    (process handlers fuel message values locale)

/-- Named subterm of the body of `process`: the nodes emitted for the literal
text preceding the first placeholder block. -/
def procHead (m : List Char) (s : Nat) : List RNode :=
  if m.take s ≠ [] then [decorateMessageString (m.take s)] else []

/-- Named subterm of the body of `process`: the `[key, type, format]` parts of
the block running from position `s` to position `e` of the message. -/
def blockParts (m : List Char) (s e : Nat) : List (List Char) :=
  splitFormattedArgument (seg m s (e + 1))

/-- Named subterm of the body of `process` (MessageFormatter.js lines 141-145):
the value stored on the placeholder node — the type handler applied to
`(body, format, values, locale, process)` when `type` names a registered
handler, the resolved raw value otherwise. -/
def blockValue (handlers : Handlers) (f : Nat) (m : List Char) (v : Values)
    (l : Option (List Char)) (s e : Nat) : JValue :=
  match lookupTypeHandler handlers ((blockParts m s e).get? 1) with
  | some handler =>
    handler (resolveBody v ((blockParts m s e).get? 0)) ((blockParts m s e).get? 2) v l
      (fun m2 v2 l2 => process handlers f m2 v2 l2)
  | none => resolveBody v ((blockParts m s e).get? 0)

/-- Named subterm of the body of `process`: the decorated node emitted for
the placeholder block running from position `s` to position `e`. -/
def blockNode (handlers : Handlers) (f : Nat) (m : List Char) (v : Values)
    (l : Option (List Char)) (s e : Nat) : RNode :=
  decorateValue ((blockParts m s e).get? 0) ((blockParts m s e).get? 1)
    (blockValue handlers f m v l s e)

/-- Concrete type handler used to instantiate the dispatch theorem on a
concrete input: it ignores its arguments and returns the string `U`. -/
def demoHandler : Handler := fun _ _ _ _ _ => JValue.str ['U']

/-- Specification-side definition, following the words of the claim: the
message with every placeholder block replaced by its resolved value, in
left-to-right textual order (locating blocks with the same bracket matcher
and key extraction as the system, resolving a missing/null/undefined value
to the empty string), failing on unbalanced braces. -/
def substituteSpec (values : Values) (message : List Char) : Except Err (List Char) :=
  if hm : message = [] then Except.ok []
  else
    match indexOfChar message '{' with
    | none => Except.ok message
    | some s =>
      let fcb := findClosingBracket message s
      if fcb ≠ -1 then
        let e := fcb.toNat
        let key := (splitFormattedArgument (seg message s (e + 1))).get? 0
        let resolved := resolveStr values key
        match substituteSpec values (message.drop (e + 1)) with
        | Except.ok rest => Except.ok (message.take s ++ (resolved ++ rest))
        | Except.error err => Except.error err
      else Except.error (Err.unbalanced message)
termination_by message.length
decreasing_by
  have : message.length > 0 := List.length_pos.mpr hm
  simp only [List.length_drop]
  omega

/-- Specification-side predicate for the unbalanced-braces error condition:
scanning the message left to right the way the processor does, some opening
brace has no matching closing brace before the message ends. -/
def hasUnmatchedBrace (message : List Char) : Bool :=
  if hm : message = [] then false
  else
    match indexOfChar message '{' with
    | none => false
    | some s =>
      let fcb := findClosingBracket message s
      if fcb = -1 then true
      else hasUnmatchedBrace (message.drop (fcb.toNat + 1))
termination_by message.length
decreasing_by
  have : message.length > 0 := List.length_pos.mpr hm
  simp only [List.length_drop]
  omega

/-- Specification-side: the bracket-count balance of the scanned region
`[a, b)` of the string (equal counts of opening and closing braces). -/
def countsBalanced (s : List Char) (a b : Nat) : Prop :=
  (seg s a b).count '{' = (seg s a b).count '}'

/-- Specification-side characterisation of the matching closing bracket for a
scan starting at position `a0`: the first position at or after `a0` holding a
closing brace at nesting depth zero (equal brace counts since `a0`). -/
def isMatchFrom (s : List Char) (a0 e : Nat) : Prop :=
  a0 ≤ e ∧ e < s.length ∧ s.get? e = some '}' ∧ countsBalanced s a0 e ∧
  ∀ j, a0 ≤ j → j < e → ¬(s.get? j = some '}' ∧ countsBalanced s a0 j)

/-! ### Helper lemmas -/

theorem indexOfChar_ne_nil {m : List Char} {c : Char} {s : Nat}
    (h : indexOfChar m c = some s) : m ≠ [] := by
  intro hc
  subst hc
  simp [indexOfChar] at h

theorem indexOfChar_none_of_not_mem {m : List Char} {c : Char} (h : c ∉ m) :
    indexOfChar m c = none := by
  induction m with
  | nil => rfl
  | cons a rest ih =>
    simp only [List.mem_cons, not_or] at h
    have hne : ¬(a = c) := fun hc => h.1 hc.symm
    simp [indexOfChar, hne, ih h.2]

theorem fcbGo_bounds {t : List Char} :
    ∀ {i d e : Nat}, findClosingBracketGo t i d = (e : Int) →
      i ≤ e ∧ e - i < t.length ∧ t.get? (e - i) = some '}' := by
  induction t with
  | nil =>
    intro i d e h
    simp only [findClosingBracketGo] at h
    omega
  | cons c rest ih =>
    intro i d e h
    simp only [findClosingBracketGo] at h
    by_cases hc : c = '}'
    · rw [if_pos hc] at h
      by_cases hd : d = 0
      · rw [if_pos hd] at h
        have he : e = i := by
          have := congrArg Int.toNat h
          simpa using this.symm
        subst he
        simp [hc]
      · rw [if_neg hd] at h
        have h3 := ih h
        have hie : i + 1 ≤ e := h3.1
        refine ⟨by omega, by simp; omega, ?_⟩
        have : e - i = (e - (i + 1)) + 1 := by omega
        rw [this]
        simpa using h3.2.2
    · rw [if_neg hc] at h
      by_cases hc2 : c = '{'
      · rw [if_pos hc2] at h
        have h3 := ih h
        have hie : i + 1 ≤ e := h3.1
        refine ⟨by omega, by simp; omega, ?_⟩
        have : e - i = (e - (i + 1)) + 1 := by omega
        rw [this]
        simpa using h3.2.2
      · rw [if_neg hc2] at h
        have h3 := ih h
        have hie : i + 1 ≤ e := h3.1
        refine ⟨by omega, by simp; omega, ?_⟩
        have : e - i = (e - (i + 1)) + 1 := by omega
        rw [this]
        simpa using h3.2.2

theorem findClosingBracket_bounds {m : List Char} {s e : Nat}
    (h : findClosingBracket m s = (e : Int)) :
    s + 1 ≤ e ∧ e < m.length ∧ m.get? e = some '}' := by
  unfold findClosingBracket at h
  have h3 := fcbGo_bounds h
  have hlen : (m.drop (s + 1)).length = m.length - (s + 1) := List.length_drop _ _
  have hget : (m.drop (s + 1)).get? (e - (s + 1)) = m.get? (s + 1 + (e - (s + 1))) :=
    List.get?_drop _ _ _
  refine ⟨h3.1, by omega, ?_⟩
  have : s + 1 + (e - (s + 1)) = e := by omega
  rw [this] at hget
  rw [← hget]
  exact h3.2.2

theorem block_ne_nil {m : List Char} {s e : Nat}
    (h : findClosingBracket m s = (e : Int)) : seg m s (e + 1) ≠ [] := by
  have hb := findClosingBracket_bounds h
  have hlen : (seg m s (e + 1)).length = min (e + 1) m.length - s := by
    simp [seg, List.length_drop, List.length_take]
  intro hc
  rw [hc] at hlen
  simp at hlen
  omega

/-! ### Step lemmas for `process` -/

theorem process_zero (handlers : Handlers) (m : List Char) (v : Values)
    (l : Option (List Char)) : process handlers 0 m v l = Except.ok [] := rfl

theorem process_nil (handlers : Handlers) (fuel : Nat) (v : Values)
    (l : Option (List Char)) : process handlers fuel [] v l = Except.ok [] := by
  cases fuel <;> rfl

theorem process_noBrace {m : List Char} (handlers : Handlers) (f : Nat) (v : Values)
    (l : Option (List Char)) (hm : m ≠ []) (hidx : indexOfChar m '{' = none) :
    process handlers (f + 1) m v l = Except.ok [decorateMessageString m] := by
  simp [process, hm, hidx]

theorem process_unbalanced {m : List Char} {s : Nat} (handlers : Handlers) (f : Nat)
    (v : Values) (l : Option (List Char)) (hidx : indexOfChar m '{' = some s)
    (hfcb : findClosingBracket m s = -1) :
    process handlers (f + 1) m v l = Except.error (Err.unbalanced m) := by
  have hm : m ≠ [] := indexOfChar_ne_nil hidx
  simp [process, hm, hidx, hfcb]

theorem process_block {m : List Char} {s e : Nat} (handlers : Handlers) (f : Nat)
    (v : Values) (l : Option (List Char)) (hidx : indexOfChar m '{' = some s)
    (hfcb : findClosingBracket m s = (e : Int)) :
    process handlers (f + 1) m v l =
      if m.drop (e + 1) ≠ [] then
        match process handlers f (m.drop (e + 1)) v l with
        | Except.ok rest =>
          Except.ok ((procHead m s ++ [blockNode handlers f m v l s e]) ++ rest)
        | Except.error err => Except.error err
      else Except.ok (procHead m s ++ [blockNode handlers f m v l s e]) := by
  have hm : m ≠ [] := indexOfChar_ne_nil hidx
  have hblock := block_ne_nil hfcb
  have hne : findClosingBracket m s ≠ -1 := by rw [hfcb]; omega
  simp only [process, hm, hidx, hfcb, if_neg, ite_not, if_false, Int.toNat_ofNat,
    procHead, blockNode, blockValue, blockParts]
  simp [hm, hblock, hne, hfcb]

theorem fcbGo_shape (t : List Char) : ∀ (i d : Nat),
    findClosingBracketGo t i d = -1 ∨ ∃ e : Nat, findClosingBracketGo t i d = (e : Int) := by
  induction t with
  | nil => intro i d; left; rfl
  | cons c rest ih =>
    intro i d
    simp only [findClosingBracketGo]
    by_cases hc : c = '}'
    · rw [if_pos hc]
      by_cases hd : d = 0
      · rw [if_pos hd]; right; exact ⟨i, rfl⟩
      · rw [if_neg hd]; exact ih _ _
    · rw [if_neg hc]
      by_cases hc2 : c = '{'
      · rw [if_pos hc2]; exact ih _ _
      · rw [if_neg hc2]; exact ih _ _

theorem findClosingBracket_shape (m : List Char) (s : Nat) :
    findClosingBracket m s = -1 ∨ ∃ e : Nat, findClosingBracket m s = (e : Int) :=
  fcbGo_shape _ _ _

/-! ### Lemmas about `extractValues` and `joinValues` -/

theorem extractValues_append (a b : List RNode) :
    extractValues (a ++ b) = extractValues a ++ extractValues b := by
  induction a with
  | nil => simp [extractValues]
  | cons n rest ih =>
    cases n with
    | mk src k t val =>
      cases val with
      | str s => simp [extractValues, ih]
      | null => simp [extractValues, ih]
      | undef => simp [extractValues, ih]
      | arr l => simp [extractValues, ih]

theorem joinValues_append (a b : List JValue) :
    joinValues (a ++ b) = joinValues a ++ joinValues b := by
  induction a with
  | nil => simp [joinValues]
  | cons v rest ih => simp [joinValues, ih, List.append_assoc]

theorem joinExtract_procHead (m : List Char) (s : Nat) :
    joinValues (extractValues (procHead m s)) = m.take s := by
  unfold procHead
  by_cases h : m.take s = []
  · simp [h, extractValues, joinValues]
  · simp [h, extractValues, joinValues, decorateMessageString, jvalueJoinString]

/-! ### Node provenance lemmas -/

theorem source_decorateMessageString (x : List Char) :
    (decorateMessageString x).source = "message".data := rfl

theorem source_decorateValue (k t : Option (List Char)) (v : JValue) :
    (decorateValue k t v).source = "value".data := rfl

theorem source_blockNode (handlers : Handlers) (f : Nat) (m : List Char) (v : Values)
    (l : Option (List Char)) (s e : Nat) :
    (blockNode handlers f m v l s e).source = "value".data := rfl

/-- Helper for the node-provenance claim, by strong induction on the message
length: every node in a successful `process` result is tagged either
`'message'` or `'value'`. -/
theorem process_sources (N : Nat) : ∀ (m : List Char), m.length ≤ N →
    ∀ (handlers : Handlers) (fuel : Nat) (v : Values) (l : Option (List Char))
      (nodes : List RNode),
    process handlers fuel m v l = Except.ok nodes →
    ∀ n ∈ nodes, n.source = "message".data ∨ n.source = "value".data := by
  induction N with
  | zero =>
    intro m hlen handlers fuel v l nodes hproc n hn
    have hm : m = [] := List.length_eq_zero.mp (by omega)
    subst hm
    rw [process_nil] at hproc
    cases hproc
    simp at hn
  | succ N ih =>
    intro m hlen handlers fuel v l nodes hproc n hn
    cases fuel with
    | zero =>
      rw [process_zero] at hproc
      cases hproc
      simp at hn
    | succ f =>
      by_cases hm : m = []
      · subst hm
        rw [process_nil] at hproc
        cases hproc
        simp at hn
      · cases hidx : indexOfChar m '{' with
        | none =>
          rw [process_noBrace handlers f v l hm hidx] at hproc
          cases hproc
          simp only [List.mem_singleton] at hn
          subst hn
          left
          exact source_decorateMessageString m
        | some s =>
          rcases findClosingBracket_shape m s with hfcb | ⟨e, hfcb⟩
          · rw [process_unbalanced handlers f v l hidx hfcb] at hproc
            cases hproc
          · rw [process_block handlers f v l hidx hfcb] at hproc
            have hmem_head : ∀ x ∈ procHead m s ++ [blockNode handlers f m v l s e],
                x.source = "message".data ∨ x.source = "value".data := by
              intro x hx
              rcases List.mem_append.mp hx with hx | hx
              · unfold procHead at hx
                by_cases ht : m.take s = []
                · simp [ht] at hx
                · simp only [ht, ne_eq, not_false_iff, if_pos, List.mem_singleton] at hx
                  rw [hx]
                  left
                  exact source_decorateMessageString _
              · simp only [List.mem_singleton] at hx
                rw [hx]
                right
                exact source_blockNode _ _ _ _ _ _ _
            by_cases htail : m.drop (e + 1) = []
            · rw [if_neg (by simpa using htail)] at hproc
              cases hproc
              exact hmem_head n hn
            · rw [if_pos (by simpa using htail)] at hproc
              cases hrec : process handlers f (m.drop (e + 1)) v l with
              | error err => rw [hrec] at hproc; cases hproc
              | ok rest =>
                rw [hrec] at hproc
                cases hproc
                rcases List.mem_append.mp hn with hn | hn
                · exact hmem_head n hn
                · have hdlen : (m.drop (e + 1)).length ≤ N := by
                    have : m.length > 0 := List.length_pos.mpr hm
                    simp only [List.length_drop]
                    omega
                  exact ih (m.drop (e + 1)) hdlen handlers f v l rest hrec n hn

/-! ### Lemmas for the bracket-matcher characterisation -/

theorem seg_self (s : List Char) (a : Nat) : seg s a a = [] := by
  unfold seg
  apply List.drop_eq_nil_of_le
  simp [List.length_take]

theorem seg_snoc {s : List Char} {a i : Nat} {c : Char} (hai : a ≤ i)
    (hget : s.get? i = some c) : seg s a (i + 1) = seg s a i ++ [c] := by
  have hilen : i < s.length := by
    by_contra hcon
    push_neg at hcon
    rw [List.get?_eq_none.mpr hcon] at hget
    cases hget
  have hget2 : s[i]? = some c := by
    rw [← List.get?_eq_getElem?]
    exact hget
  unfold seg
  rw [List.take_succ, hget2]
  show List.drop a (List.take i s ++ [c]) = List.drop a (List.take i s) ++ [c]
  rw [List.drop_append_eq_append_drop]
  have hlen : (s.take i).length = i := by
    simp [List.length_take]
    omega
  rw [hlen]
  have hz : a - i = 0 := by omega
  rw [hz]
  rfl

theorem count_snoc (l : List Char) (x c : Char) :
    (l ++ [x]).count c = l.count c + (if x = c then 1 else 0) := by
  simp [List.count_append, List.count_cons]

theorem fcbGo_spec (s : List Char) (a0 : Nat) :
    ∀ (t : List Char) (i depth : Nat), t = s.drop i → a0 ≤ i →
    (seg s a0 i).count '{' = (seg s a0 i).count '}' + depth →
    (∀ j, a0 ≤ j → j < i → ¬(s.get? j = some '}' ∧ countsBalanced s a0 j)) →
    (∃ e : Nat, findClosingBracketGo t i depth = (e : Int) ∧ isMatchFrom s a0 e) ∨
    (findClosingBracketGo t i depth = -1 ∧ ∀ e : Nat, ¬ isMatchFrom s a0 e) := by
  intro t
  induction t with
  | nil =>
    intro i depth ht hai hcount hmin
    right
    refine ⟨rfl, ?_⟩
    intro e he
    obtain ⟨h1, h2, h3, h4, h5⟩ := he
    have hlen : s.length ≤ i := by
      have hcg := congrArg List.length ht
      simp [List.length_drop] at hcg
      omega
    exact hmin e h1 (by omega) ⟨h3, h4⟩
  | cons c rest ih =>
    intro i depth ht hai hcount hmin
    have hget : s.get? i = some c := by
      have hd0 : (s.drop i).get? 0 = s.get? (i + 0) := List.get?_drop s i 0
      rw [← ht] at hd0
      simpa using hd0.symm
    have hilen : i < s.length := by
      by_contra hcon
      push_neg at hcon
      rw [List.get?_eq_none.mpr hcon] at hget
      cases hget
    have hrest : rest = s.drop (i + 1) := by
      have hd0 : (s.drop i).tail = s.drop (i + 1) := List.tail_drop s i
      rw [← ht] at hd0
      simpa using hd0
    have hsegsnoc : seg s a0 (i + 1) = seg s a0 i ++ [c] := seg_snoc hai hget
    simp only [findClosingBracketGo]
    by_cases hc : c = '}'
    · rw [if_pos hc]
      by_cases hd : depth = 0
      · rw [if_pos hd]
        left
        subst hd
        refine ⟨i, rfl, hai, hilen, by rw [hget, hc], ?_, hmin⟩
        unfold countsBalanced
        omega
      · rw [if_neg hd]
        apply ih (i + 1) (depth - 1) hrest (by omega) ?_ ?_
        · rw [hsegsnoc, hc, count_snoc, count_snoc]
          have e1 : (if '}' = '{' then 1 else 0) = 0 := by decide
          have e2 : (if '}' = '}' then 1 else 0) = 1 := by decide
          rw [e1, e2]
          omega
        · intro j haj hji
          rcases Nat.lt_or_ge j i with hji2 | hji2
          · exact hmin j haj hji2
          · have hj : j = i := by omega
            subst hj
            rintro ⟨hj1, hj2⟩
            unfold countsBalanced at hj2
            omega
    · rw [if_neg hc]
      by_cases hc2 : c = '{'
      · rw [if_pos hc2]
        apply ih (i + 1) (depth + 1) hrest (by omega) ?_ ?_
        · rw [hsegsnoc, hc2, count_snoc, count_snoc]
          have e1 : (if '{' = '{' then 1 else 0) = 1 := by decide
          have e2 : (if '{' = '}' then 1 else 0) = 0 := by decide
          rw [e1, e2]
          omega
        · intro j haj hji
          rcases Nat.lt_or_ge j i with hji2 | hji2
          · exact hmin j haj hji2
          · have hj : j = i := by omega
            subst hj
            rintro ⟨hj1, _⟩
            rw [hget] at hj1
            injection hj1 with hj1
            exact hc hj1
      · rw [if_neg hc2]
        apply ih (i + 1) depth hrest (by omega) ?_ ?_
        · rw [hsegsnoc, count_snoc, count_snoc]
          rw [if_neg (fun hx => hc2 hx), if_neg (fun hx => hc hx)]
          omega
        · intro j haj hji
          rcases Nat.lt_or_ge j i with hji2 | hji2
          · exact hmin j haj hji2
          · have hj : j = i := by omega
            subst hj
            rintro ⟨hj1, _⟩
            rw [hget] at hj1
            injection hj1 with hj1
            exact hc hj1

/-! ### Lemmas for simple one-block messages -/

theorem fcbGo_skip (k : List Char) : ∀ (rest : List Char) (i d : Nat),
    (∀ c ∈ k, c ≠ '{' ∧ c ≠ '}') →
    findClosingBracketGo (k ++ rest) i d = findClosingBracketGo rest (i + k.length) d := by
  induction k with
  | nil => intro rest i d _; simp
  | cons c ks ih =>
    intro rest i d hk
    have hc := hk c (by simp)
    simp only [List.cons_append, findClosingBracketGo, if_neg hc.2, if_neg hc.1,
      List.append_eq]
    rw [ih rest (i + 1) d (fun x hx => hk x (by simp [hx]))]
    have harith : i + 1 + ks.length = i + (c :: ks).length := by simp; omega
    rw [harith]

theorem fcb_simple_block (k : List Char) (hk : ∀ c ∈ k, c ≠ '{' ∧ c ≠ '}') :
    findClosingBracket ('{' :: (k ++ ['}'])) 0 = ((k.length + 1 : Nat) : Int) := by
  unfold findClosingBracket
  simp only [List.drop_succ_cons, List.drop_zero]
  rw [fcbGo_skip k ['}'] 1 0 hk]
  simp [findClosingBracketGo]
  omega

theorem indexOfList_single_none {k : List Char} {c : Char} (h : c ∉ k) :
    indexOfList k [c] = none := by
  induction k with
  | nil => rfl
  | cons a ks ih =>
    simp only [List.mem_cons, not_or] at h
    have hne : (c == a) = false := beq_eq_false_iff_ne.mpr h.1
    simp [indexOfList, List.isPrefixOf, hne, ih h.2]

theorem splitFormattedArgument_simple (k : List Char) (hk : k ≠ []) (hc : (',') ∉ k) :
    splitFormattedArgument ('{' :: (k ++ ['}'])) = [k] := by
  unfold splitFormattedArgument split
  simp only [List.drop_succ_cons, List.drop_zero, List.dropLast_concat]
  have hnone : indexOfList k [','] = none := indexOfList_single_none hc
  cases k with
  | nil => exact absurd rfl hk
  | cons a ks => simp [splitGo, hnone]

theorem resolveBody_of_nullOrUndef {v : Values} {key : Option (List Char)}
    (h : (propGet v key).isNullOrUndef = true) : resolveBody v key = JValue.str [] := by
  unfold resolveBody
  cases hp : propGet v key <;> simp [hp, JValue.isNullOrUndef] at h ⊢

/-! ### Step lemmas for `hasUnmatchedBrace` -/

theorem hasUnmatchedBrace_nil : hasUnmatchedBrace [] = false := by
  rw [hasUnmatchedBrace.eq_def]
  simp

theorem hasUnmatchedBrace_noBrace {m : List Char} (hidx : indexOfChar m '{' = none) :
    hasUnmatchedBrace m = false := by
  rw [hasUnmatchedBrace.eq_def]
  by_cases hm : m = []
  · simp [hm]
  · simp [hm, hidx]

theorem hasUnmatchedBrace_unbal {m : List Char} {s : Nat}
    (hidx : indexOfChar m '{' = some s) (hfcb : findClosingBracket m s = -1) :
    hasUnmatchedBrace m = true := by
  have hm := indexOfChar_ne_nil hidx
  rw [hasUnmatchedBrace.eq_def]
  simp [hm, hidx, hfcb]

theorem hasUnmatchedBrace_step {m : List Char} {s e : Nat}
    (hidx : indexOfChar m '{' = some s) (hfcb : findClosingBracket m s = (e : Int)) :
    hasUnmatchedBrace m = hasUnmatchedBrace (m.drop (e + 1)) := by
  have hm := indexOfChar_ne_nil hidx
  have hne : findClosingBracket m s ≠ -1 := by
    rw [hfcb]
    omega
  rw [hasUnmatchedBrace.eq_def]
  simp [hm, hidx, hfcb, hne]

/-- Helper for the unbalanced-braces claim, by strong induction on the message
length: with sufficient fuel, a message with an unmatched opening brace makes
`process` fail with the syntax error carrying the offending (nonempty) suffix
of the message. -/
theorem process_unmatched (N : Nat) : ∀ (m : List Char), m.length ≤ N →
    hasUnmatchedBrace m = true →
    ∀ (handlers : Handlers) (fuel : Nat) (v : Values) (l : Option (List Char)),
    m.length < fuel →
    ∃ suffix, suffix <:+ m ∧ suffix ≠ [] ∧
      process handlers fuel m v l = Except.error (Err.unbalanced suffix) := by
  induction N with
  | zero =>
    intro m hlen hum handlers fuel v l hf
    have hm : m = [] := List.length_eq_zero.mp (by omega)
    rw [hm, hasUnmatchedBrace_nil] at hum
    cases hum
  | succ N ih =>
    intro m hlen hum handlers fuel v l hf
    obtain ⟨f, rfl⟩ : ∃ f, fuel = f + 1 := ⟨fuel - 1, by omega⟩
    by_cases hm : m = []
    · rw [hm, hasUnmatchedBrace_nil] at hum
      cases hum
    · cases hidx : indexOfChar m '{' with
      | none =>
        rw [hasUnmatchedBrace_noBrace hidx] at hum
        cases hum
      | some s =>
        rcases findClosingBracket_shape m s with hfcb | ⟨e, hfcb⟩
        · exact ⟨m, List.suffix_refl m, hm, process_unbalanced handlers f v l hidx hfcb⟩
        · rw [hasUnmatchedBrace_step hidx hfcb] at hum
          have htail : m.drop (e + 1) ≠ [] := by
            intro hc
            rw [hc, hasUnmatchedBrace_nil] at hum
            cases hum
          have hpos : m.length > 0 := List.length_pos.mpr hm
          have hdlen : (m.drop (e + 1)).length ≤ N := by
            simp only [List.length_drop]
            omega
          have hdf : (m.drop (e + 1)).length < f := by
            simp only [List.length_drop]
            omega
          obtain ⟨suf, hsuf, hsufne, hproc⟩ :=
            ih (m.drop (e + 1)) hdlen hum handlers f v l hdf
          refine ⟨suf, hsuf.trans (List.drop_suffix _ _), hsufne, ?_⟩
          rw [process_block handlers f v l hidx hfcb]
          rw [if_pos (by simp [htail])]
          rw [hproc]

/-! ### Step lemmas for `substituteSpec` and the flattening round trip -/

theorem substituteSpec_nil (v : Values) : substituteSpec v [] = Except.ok [] := by
  rw [substituteSpec.eq_def]
  simp

theorem substituteSpec_noBrace {m : List Char} (v : Values) (hm : m ≠ [])
    (hidx : indexOfChar m '{' = none) : substituteSpec v m = Except.ok m := by
  rw [substituteSpec.eq_def]
  simp [hm, hidx]

theorem substituteSpec_unbal {m : List Char} {s : Nat} (v : Values)
    (hidx : indexOfChar m '{' = some s) (hfcb : findClosingBracket m s = -1) :
    substituteSpec v m = Except.error (Err.unbalanced m) := by
  have hm := indexOfChar_ne_nil hidx
  rw [substituteSpec.eq_def]
  simp [hm, hidx, hfcb]

theorem substituteSpec_block {m : List Char} {s e : Nat} (v : Values)
    (hidx : indexOfChar m '{' = some s) (hfcb : findClosingBracket m s = (e : Int)) :
    substituteSpec v m =
      match substituteSpec v (m.drop (e + 1)) with
      | Except.ok rest =>
        Except.ok (m.take s ++ (resolveStr v ((blockParts m s e).get? 0) ++ rest))
      | Except.error err => Except.error err := by
  have hm := indexOfChar_ne_nil hidx
  have hne : findClosingBracket m s ≠ -1 := by
    rw [hfcb]
    omega
  rw [substituteSpec.eq_def]
  simp only [hm, hidx, hfcb, dif_neg, if_neg, Int.toNat_natCast, blockParts]
  simp [hm, hne, hfcb]

theorem lookupTypeHandler_nil (type : Option (List Char)) :
    lookupTypeHandler [] type = none := by
  cases type with
  | none => rfl
  | some t => by_cases ht : t = [] <;> simp [lookupTypeHandler, ht, List.find?]

theorem blockValue_nil (f : Nat) (m : List Char) (v : Values) (l : Option (List Char))
    (s e : Nat) :
    blockValue [] f m v l s e = resolveBody v ((blockParts m s e).get? 0) := by
  unfold blockValue
  rw [lookupTypeHandler_nil]

theorem resolveBody_eq_str {v : Values} (hall : ∀ p ∈ v, p.2.isStr = true)
    (key : Option (List Char)) :
    resolveBody v key = JValue.str (resolveStr v key) := by
  unfold resolveBody resolveStr
  cases hp : propGet v key with
  | str s => rfl
  | null => rfl
  | undef => rfl
  | arr nodes =>
    exfalso
    unfold propGet at hp
    cases hf : v.find? (fun p => decide (p.1 = jsKeyString key)) with
    | none => rw [hf] at hp; cases hp
    | some p =>
      rw [hf] at hp
      have hp2 : p.2 = JValue.arr nodes := hp
      have hmem := List.mem_of_find?_eq_some hf
      have hstr := hall p hmem
      rw [hp2] at hstr
      simp [JValue.isStr] at hstr

theorem joinExtract_blockNode_nil {v : Values} (hall : ∀ p ∈ v, p.2.isStr = true)
    (f : Nat) (m : List Char) (l : Option (List Char)) (s e : Nat) :
    joinValues (extractValues [blockNode [] f m v l s e])
      = resolveStr v ((blockParts m s e).get? 0) := by
  unfold blockNode
  rw [blockValue_nil, resolveBody_eq_str hall]
  simp [decorateValue, extractValues, joinValues, jvalueJoinString]

/-- Helper for the flattening round trip, by strong induction on the message
length: with no registered handlers, an all-string values map and sufficient
fuel, `format` produces exactly the left-to-right substitution of the
message (and fails exactly when the substitution does). -/
theorem format_substitute (N : Nat) : ∀ (m : List Char), m.length ≤ N →
    ∀ (fuel : Nat) (v : Values) (l : Option (List Char)),
    (∀ p ∈ v, p.2.isStr = true) → m.length < fuel →
    format [] fuel m v l = substituteSpec v m := by
  induction N with
  | zero =>
    intro m hlen fuel v l hall hf
    have hm : m = [] := List.length_eq_zero.mp (by omega)
    subst hm
    rw [format, process_nil, substituteSpec_nil]
    simp [Except.map, extractValues, joinValues]
  | succ N ih =>
    intro m hlen fuel v l hall hf
    obtain ⟨f, rfl⟩ : ∃ f, fuel = f + 1 := ⟨fuel - 1, by omega⟩
    by_cases hm : m = []
    · subst hm
      rw [format, process_nil, substituteSpec_nil]
      simp [Except.map, extractValues, joinValues]
    · cases hidx : indexOfChar m '{' with
      | none =>
        rw [format, process_noBrace [] f v l hm hidx, substituteSpec_noBrace v hm hidx]
        simp [Except.map, extractValues, decorateMessageString, joinValues, jvalueJoinString]
      | some s =>
        rcases findClosingBracket_shape m s with hfcb | ⟨e, hfcb⟩
        · rw [format, process_unbalanced [] f v l hidx hfcb, substituteSpec_unbal v hidx hfcb]
          rfl
        · rw [format, process_block [] f v l hidx hfcb, substituteSpec_block v hidx hfcb]
          have hpos : m.length > 0 := List.length_pos.mpr hm
          by_cases htail : m.drop (e + 1) = []
          · rw [if_neg (by simp [htail]), htail, substituteSpec_nil]
            simp only [Except.map]
            rw [extractValues_append, joinValues_append, joinExtract_procHead,
              joinExtract_blockNode_nil hall f m l s e]
            simp
          · rw [if_pos (by simp [htail])]
            have hdlen : (m.drop (e + 1)).length ≤ N := by
              simp only [List.length_drop]
              omega
            have hdf : (m.drop (e + 1)).length < f := by
              simp only [List.length_drop]
              omega
            have hIH := ih (m.drop (e + 1)) hdlen f v l hall hdf
            rw [format] at hIH
            cases hrec : process [] f (m.drop (e + 1)) v l with
            | error err =>
              rw [hrec] at hIH
              simp only [Except.map] at hIH
              rw [← hIH]
              rfl
            | ok rest =>
              rw [hrec] at hIH
              simp only [Except.map] at hIH
              rw [← hIH]
              simp only [Except.map]
              rw [extractValues_append, joinValues_append, extractValues_append,
                joinValues_append, joinExtract_procHead,
                joinExtract_blockNode_nil hall f m l s e]
              simp [List.append_assoc]

/-! ### Trimming of the splitter's parts -/

theorem trim_eq_rdropWhile (s : List Char) :
    trim s = List.rdropWhile Char.isWhitespace (List.dropWhile Char.isWhitespace s) := rfl

theorem trim_idempotent (s : List Char) : trim (trim s) = trim s := by
  rw [trim_eq_rdropWhile, trim_eq_rdropWhile]
  have hdw : List.dropWhile Char.isWhitespace
      (List.rdropWhile Char.isWhitespace (List.dropWhile Char.isWhitespace s))
      = List.rdropWhile Char.isWhitespace (List.dropWhile Char.isWhitespace s) := by
    rw [List.dropWhile_eq_self_iff]
    intro hl
    obtain ⟨t, ht⟩ :=
      List.rdropWhile_prefix Char.isWhitespace (List.dropWhile Char.isWhitespace s)
    have hu : List.dropWhile Char.isWhitespace (List.dropWhile Char.isWhitespace s)
        = List.dropWhile Char.isWhitespace s := List.dropWhile_idempotent _ _
    have hu2 := List.dropWhile_eq_self_iff.mp hu
    have hul : 0 < (List.dropWhile Char.isWhitespace s).length := by
      have hle := congrArg List.length ht
      simp only [List.length_append] at hle
      omega
    have hget : (List.dropWhile Char.isWhitespace s).get? 0
        = (List.rdropWhile Char.isWhitespace (List.dropWhile Char.isWhitespace s)).get? 0 := by
      conv_lhs => rw [← ht]
      exact List.get?_append hl
    rw [List.get?_eq_get hul, List.get?_eq_get hl] at hget
    injection hget with hget
    rw [← hget]
    exact hu2 hul
  rw [hdw, List.rdropWhile_idempotent]

/-- Every part the splitter worker emits other than the last one is a trimmed
head (utilities.js line 139), so it is invariant under further trimming,
provided the incoming accumulator elements are. -/
theorem splitGo_parts_trimmed (sep : List Char) :
    ∀ (fuel : Nat) (string : List Char) (limit : Nat) (acc : List (List Char)),
    (∀ p0 ∈ acc, trim p0 = p0) →
    ∀ (i : Nat) (part : List Char),
      (splitGo sep fuel string limit acc).get? i = some part →
      i + 1 < (splitGo sep fuel string limit acc).length →
      trim part = part := by
  intro fuel
  induction fuel with
  | zero =>
    intro string limit acc hacc i part hget _
    exact hacc part (List.get?_mem hget)
  | succ f ih =>
    intro string limit acc hacc i part hget hlast
    by_cases hs : string = []
    · rw [show splitGo sep (f + 1) string limit acc = acc by simp [splitGo, hs]] at hget
      exact hacc part (List.get?_mem hget)
    · by_cases hl : limit = 1
      · rw [show splitGo sep (f + 1) string limit acc = acc ++ [string] by
          simp [splitGo, hs, hl]] at hget hlast
        have hi : i < acc.length := by
          simp only [List.length_append, List.length_singleton] at hlast
          omega
        rw [List.get?_append hi] at hget
        exact hacc part (List.get?_mem hget)
      · cases hidx : indexOfList string sep with
        | none =>
          rw [show splitGo sep (f + 1) string limit acc = acc ++ [string] by
            simp [splitGo, hs, hl, hidx]] at hget hlast
          have hi : i < acc.length := by
            simp only [List.length_append, List.length_singleton] at hlast
            omega
          rw [List.get?_append hi] at hget
          exact hacc part (List.get?_mem hget)
        | some d =>
          rw [show splitGo sep (f + 1) string limit acc
              = splitGo sep f (trim (string.drop (d + sep.length + 1))) (limit - 1)
                  (acc ++ [trim (string.take d)]) by
            simp [splitGo, hs, hl, hidx]] at hget hlast
          apply ih _ _ _ ?_ i part hget hlast
          intro p0 hp0
          rcases List.mem_append.mp hp0 with hp0 | hp0
          · exact hacc p0 hp0
          · rw [List.mem_singleton.mp hp0]
            exact trim_idempotent _

/-! ### Claim theorems -/

/-- C1: the flattening round trip.  With balanced or unbalanced braces alike,
no registered type handlers and a values map whose entries are all strings,
`format` — the concatenation, in left-to-right order, of the recursively
flattened leaf values of the node sequence produced by `process` — equals the
message with every placeholder block replaced by its resolved value
(`substituteSpec`); on a message with balanced braces both sides are the
`Except.ok` substituted string. -/
theorem claim_C1 (fuel : Nat) (m : List Char) (v : Values) (l : Option (List Char))
    (hall : ∀ p ∈ v, p.2.isStr = true) (hf : m.length < fuel) :
    format [] fuel m v l = substituteSpec v m :=
  format_substitute m.length m le_rfl fuel v l hall hf

/-- C1 witness: the round trip applied to `Hello {name}!`. -/
theorem claim_C1_witness :
    ((∀ p ∈ [("name".data, JValue.str ("World".data))], (p.2).isStr = true) ∧
      ("Hello \x7bname\x7d!".data).length < 14) ∧
    format [] 14 ("Hello \x7bname\x7d!".data)
        [("name".data, JValue.str ("World".data))] none
      = substituteSpec [("name".data, JValue.str ("World".data))]
        ("Hello \x7bname\x7d!".data) :=
  ⟨⟨by decide, by decide⟩,
    claim_C1 14 ("Hello \x7bname\x7d!".data)
      [("name".data, JValue.str ("World".data))] none (by decide) (by decide)⟩

/-- C4: `findClosingBracket` — which scans forward from `fromIndex + 1`
keeping a nesting counter that starts at 0, increments on an opening brace
and, on a closing brace, returns its index if the counter is 0 and decrements
otherwise — returns the index of the matching closing brace (the first
position after `fromIndex` holding a closing brace at nesting depth zero,
thereby skipping nested brace pairs), or `-1` when the string ends before
such a position exists. -/
theorem claim_C4 (string : List Char) (fromIndex : Nat) :
    (∃ e : Nat, findClosingBracket string fromIndex = (e : Int) ∧
      isMatchFrom string (fromIndex + 1) e) ∨
    (findClosingBracket string fromIndex = -1 ∧
      ∀ e : Nat, ¬ isMatchFrom string (fromIndex + 1) e) := by
  unfold findClosingBracket
  apply fcbGo_spec string (fromIndex + 1) (string.drop (fromIndex + 1)) (fromIndex + 1) 0
    rfl le_rfl
  · rw [seg_self]
    simp
  · intro j h1 h2
    omega

/-- C5: a message in which some opening brace has no matching closing brace
makes `process` — and therefore `format` — fail with the unbalanced-braces
syntax error carrying the offending (nonempty) suffix of the message; the
error propagates out of the recursion instead of being recovered, and no node
sequence is returned.  `fuel` must cover the recursion depth, which the
message length always does. -/
theorem claim_C5 (handlers : Handlers) (fuel : Nat) (m : List Char) (v : Values)
    (l : Option (List Char)) (hum : hasUnmatchedBrace m = true)
    (hf : m.length < fuel) :
    ∃ suffix, suffix <:+ m ∧ suffix ≠ [] ∧
      process handlers fuel m v l = Except.error (Err.unbalanced suffix) ∧
      format handlers fuel m v l = Except.error (Err.unbalanced suffix) := by
  obtain ⟨suf, h1, h2, h3⟩ :=
    process_unmatched m.length m le_rfl hum handlers fuel v l hf
  exact ⟨suf, h1, h2, h3, by rw [format, h3]; rfl⟩

/-- C5 witness: the lone opening brace message fails with the syntax error. -/
theorem claim_C5_witness :
    (hasUnmatchedBrace ['{'] = true ∧ ['{'].length < 2) ∧
    ∃ suffix, suffix <:+ ['{'] ∧ suffix ≠ [] ∧
      process [] 2 ['{'] [] none = Except.error (Err.unbalanced suffix) ∧
      format [] 2 ['{'] [] none = Except.error (Err.unbalanced suffix) :=
  ⟨⟨@hasUnmatchedBrace_unbal ['{'] 0 rfl rfl, by decide⟩,
    claim_C5 [] 2 ['{'] [] none (@hasUnmatchedBrace_unbal ['{'] 0 rfl rfl) (by decide)⟩

/-- C2: evaluating `split` on the block interior `a,b` with separator `,` and
limit 3.  The source advances `indexOfDelimiter + separator.length + 1`
characters past the start, which skips the character immediately following the
delimiter, so the result is `["a"]` and not the `["a", "b"]` demanded by the
claim — the claim is right about the intent (the function is documented as
behaving like `String.prototype.split`) and the code drops a character. -/
theorem claim_C2_eval :
    split ("a,b".data) (",".data) 3 [] = ["a".data] ∧
    split ("a,b".data) (",".data) 3 [] ≠ ["a".data, "b".data] :=
  ⟨rfl, by decide⟩

/-- C3 (amended): every part the splitter produces before the final one is a
trimmed head, hence invariant under trimming (first conjunct: every non-final
part of the output is a fixed point of `trim`); the final part — the entire
remaining string when the delimiter is absent or only one part remains to be
produced — is pushed verbatim, without trimming (second conjunct); in
particular `splitFormattedArgument` applied to the block `{ key }` yields the
single part `" key "` with its surrounding spaces retained (third conjunct). -/
theorem claim_C3 :
    (∀ (string separator : List Char) (limit : Nat) (i : Nat) (part : List Char),
      (split string separator limit []).get? i = some part →
      i + 1 < (split string separator limit []).length →
      trim part = part)
    ∧ (∀ (string separator : List Char) (limit : Nat) (accumulator : List (List Char)),
      string ≠ [] → (limit = 1 ∨ indexOfList string separator = none) →
      split string separator limit accumulator = accumulator ++ [string])
    ∧ splitFormattedArgument ("\x7b key \x7d".data) = [" key ".data] := by
  refine ⟨?_, ?_, rfl⟩
  · intro string separator limit i part hget hlast
    exact splitGo_parts_trimmed separator (string.length + 1) string limit []
      (by intro p0 hp0; cases hp0) i part hget hlast
  · intro s sep limit acc hs hca
    show splitGo sep (s.length + 1) s limit acc = acc ++ [s]
    rcases hca with h1 | h2
    · simp [splitGo, hs, h1]
    · simp [splitGo, hs, h2]

/-- C3 counterexample: the claim as stated — that the final part is trimmed,
so that `splitFormattedArgument "{ key }"` would yield `"key"` — is false. -/
theorem claim_C3_counterexample :
    splitFormattedArgument ("\x7b key \x7d".data) ≠ ["key".data] := by decide

/-- C3 witness: the amended laws applied at concrete inputs — the non-final
part `"a"` of splitting `"a , b"` is trim-invariant, and a delimiter-free
string becomes the single verbatim final part. -/
theorem claim_C3_witness :
    (trim ("a".data) = "a".data) ∧
    ("ab".data ≠ [] ∧ indexOfList ("ab".data) (",".data) = none) ∧
    split ("ab".data) (",".data) 3 [] = [] ++ ["ab".data] :=
  ⟨claim_C3.1 ("a , b".data) (",".data) 3 0 ("a".data) (by decide) (by decide),
   ⟨by decide, by decide⟩,
   claim_C3.2.1 ("ab".data) (",".data) 3 [] (by decide) (Or.inr (by decide))⟩

/-- C9: on the block `{k, type, {nested} text}` the argument splitter produces
exactly the three parts `k`, `type` and `{nested} text`: the format part is
neither split at its internal delimiter position nor truncated at the brace of
the nested block. -/
theorem claim_C9 :
    splitFormattedArgument ("\x7bk, type, \x7bnested\x7d text\x7d".data)
    = ["k".data, "type".data, "\x7bnested\x7d text".data] := rfl

/-- C6: a placeholder block whose key is absent from the values map, or
present with a null or undefined value, is not an error: the placeholder
node carries the empty string, and `format` renders the block as the empty
string.  Stated for a one-block message `{key}` with a plain key. -/
theorem claim_C6 (handlers : Handlers) (f : Nat) (v : Values) (l : Option (List Char))
    (k : List Char) (hk : k ≠ [])
    (hchars : ∀ c ∈ k, c ≠ '{' ∧ c ≠ '}' ∧ c ≠ ',')
    (hmiss : (propGet v (some k)).isNullOrUndef = true) :
    process handlers (f + 1) ('{' :: (k ++ ['}'])) v l
      = Except.ok [decorateValue (some k) none (JValue.str [])] ∧
    format handlers (f + 1) ('{' :: (k ++ ['}'])) v l = Except.ok [] := by
  have hbr : ∀ c ∈ k, c ≠ '{' ∧ c ≠ '}' := fun c hc => ⟨(hchars c hc).1, (hchars c hc).2.1⟩
  have hcm : (',') ∉ k := fun hc => (hchars ',' hc).2.2 rfl
  have hidx : indexOfChar ('{' :: (k ++ ['}'])) '{' = some 0 := by simp [indexOfChar]
  have hfcb := fcb_simple_block k hbr
  have htail : ('{' :: (k ++ ['}'])).drop (k.length + 1 + 1) = [] :=
    List.drop_eq_nil_of_le (by simp)
  have hseg : seg ('{' :: (k ++ ['}'])) 0 (k.length + 1 + 1) = '{' :: (k ++ ['}']) := by
    unfold seg
    rw [List.drop_zero]
    have hl : k.length + 1 + 1 = ('{' :: (k ++ ['}'])).length := by simp
    rw [hl, List.take_length]
  have hparts : blockParts ('{' :: (k ++ ['}'])) 0 (k.length + 1) = [k] := by
    unfold blockParts
    rw [hseg]
    exact splitFormattedArgument_simple k hk hcm
  have hnode : blockNode handlers f ('{' :: (k ++ ['}'])) v l 0 (k.length + 1)
      = decorateValue (some k) none (JValue.str []) := by
    unfold blockNode blockValue
    rw [hparts]
    simp [lookupTypeHandler, resolveBody_of_nullOrUndef hmiss]
  have hhead : procHead ('{' :: (k ++ ['}'])) 0 = [] := by simp [procHead]
  have hproc : process handlers (f + 1) ('{' :: (k ++ ['}'])) v l
      = Except.ok [decorateValue (some k) none (JValue.str [])] := by
    rw [process_block handlers f v l hidx hfcb]
    rw [if_neg (by simp [htail])]
    rw [hhead, hnode]
    simp
  refine ⟨hproc, ?_⟩
  rw [format, hproc]
  simp [Except.map, extractValues, decorateValue, joinValues, jvalueJoinString]

/-- C6 witness: `format("{missing}", {})` is the empty string, not an error. -/
theorem claim_C6_witness :
    ("missing".data ≠ [] ∧ (propGet [] (some ("missing".data))).isNullOrUndef = true) ∧
    process [] (0 + 1) ('{' :: ("missing".data ++ ['}'])) [] none
      = Except.ok [decorateValue (some ("missing".data)) none (JValue.str [])] ∧
    format [] (0 + 1) ('{' :: ("missing".data ++ ['}'])) [] none = Except.ok [] :=
  ⟨⟨by decide, by decide⟩,
    claim_C6 [] 0 [] none ("missing".data) (by decide) (by decide) (by decide)⟩

/-- C7: the dispatch step.  For the first placeholder block of any message,
the emitted node's value is the registered type handler applied to the
resolved value, the format part, the values map, the locale and the recursion
callback into `process`; with no or an unregistered (or absent) type, the
resolved raw value is used unchanged, and in neither case does processing
fail on that block. -/
theorem claim_C7 (handlers : Handlers) (f : Nat) (m : List Char) (v : Values)
    (l : Option (List Char)) (s e : Nat) (rest : List RNode)
    (hidx : indexOfChar m '{' = some s)
    (hfcb : findClosingBracket m s = (e : Int))
    (hrest : process handlers f (m.drop (e + 1)) v l = Except.ok rest) :
    process handlers (f + 1) m v l =
      Except.ok (procHead m s ++ blockNode handlers f m v l s e :: rest) ∧
    blockNode handlers f m v l s e =
      decorateValue ((blockParts m s e).get? 0) ((blockParts m s e).get? 1)
        (match lookupTypeHandler handlers ((blockParts m s e).get? 1) with
         | some handler =>
           handler (resolveBody v ((blockParts m s e).get? 0))
             ((blockParts m s e).get? 2) v l
             (fun m2 v2 l2 => process handlers f m2 v2 l2)
         | none => resolveBody v ((blockParts m s e).get? 0)) := by
  refine ⟨?_, rfl⟩
  rw [process_block handlers f v l hidx hfcb]
  by_cases htail : m.drop (e + 1) = []
  · rw [if_neg (by simpa using htail)]
    rw [htail, process_nil] at hrest
    injection hrest with h
    subst h
    simp
  · rw [if_pos (by simpa using htail), hrest]
    simp

/-- C7 witness: the dispatch theorem applied to the message `{a, u}` with the
type `u` registered to `demoHandler`. -/
theorem claim_C7_witness :
    (indexOfChar ("\x7ba, u\x7d".data) '{' = some 0 ∧
     findClosingBracket ("\x7ba, u\x7d".data) 0 = (5 : Int) ∧
     process [("u".data, demoHandler)] 0 (("\x7ba, u\x7d".data).drop (5 + 1)) [] none
       = Except.ok []) ∧
    process [("u".data, demoHandler)] (0 + 1) ("\x7ba, u\x7d".data) [] none =
      Except.ok (procHead ("\x7ba, u\x7d".data) 0 ++
        blockNode [("u".data, demoHandler)] 0 ("\x7ba, u\x7d".data) [] none 0 5 :: []) :=
  ⟨⟨rfl, rfl, rfl⟩,
    (claim_C7 [("u".data, demoHandler)] 0 ("\x7ba, u\x7d".data) [] none 0 5 []
      rfl rfl rfl).1⟩

/-- C8: a well-formed message with no placeholder block (no opening brace)
formats to itself under an empty values map, whatever handlers are
registered (fuel 1 step suffices: the whole message is literal text). -/
theorem claim_C8 : ∀ (handlers : Handlers) (f : Nat) (m : List Char)
    (l : Option (List Char)), '{' ∉ m →
    format handlers (f + 1) m [] l = Except.ok m := by
  intro handlers f m l hmem
  by_cases hm : m = []
  · subst hm
    simp [format, process_nil, extractValues, joinValues, Except.map]
  · rw [format, process_noBrace handlers f [] l hm (indexOfChar_none_of_not_mem hmem)]
    simp [Except.map, extractValues, decorateMessageString, joinValues, jvalueJoinString]

/-- C8 witness: a concrete brace-free message formats to itself. -/
theorem claim_C8_witness :
    '{' ∉ ("hello".data) ∧ format [] 1 ("hello".data) [] none = Except.ok ("hello".data) :=
  ⟨by decide, claim_C8 [] 0 ("hello".data) none (by decide)⟩

/-- C10: every node of a successful `process` result — including the nodes the
recursive tail calls contribute — carries `source` equal to the string
`'message'` or the string `'value'`; no node is ever tagged with the exported
`SOURCE_PLACEHOLDER` constant `'placeholder'` (the formatter builds nodes with
its local `decorateMessageString`/`decorateValue`, never `decoratePlaceholder`). -/
theorem claim_C10 : ∀ (handlers : Handlers) (fuel : Nat) (m : List Char) (v : Values)
    (l : Option (List Char)) (nodes : List RNode),
    process handlers fuel m v l = Except.ok nodes →
    ∀ n ∈ nodes,
      (n.source = "message".data ∨ n.source = "value".data) ∧
      n.source ≠ SOURCE_PLACEHOLDER := by
  intro handlers fuel m v l nodes hproc n hn
  have h := process_sources m.length m le_rfl handlers fuel v l nodes hproc n hn
  refine ⟨h, ?_⟩
  rcases h with h | h <;> rw [h] <;> decide

/-- C10 witness: the provenance invariant applied to a concrete processing
result. -/
theorem claim_C10_witness :
    (((decorateMessageString ("hi".data)).source = "message".data ∨
      (decorateMessageString ("hi".data)).source = "value".data) ∧
     (decorateMessageString ("hi".data)).source ≠ SOURCE_PLACEHOLDER) :=
  claim_C10 [] 1 ("hi".data) [] none [decorateMessageString ("hi".data)]
    (process_noBrace [] 0 [] none (by decide) (by decide))
    (decorateMessageString ("hi".data)) (List.mem_singleton.mpr rfl)

end ICU
